import Mathlib

/-!
Verification development for the poll-scraping extraction core
(`scrape_polls.py`): the Locator / Boundary Scanner / Decoder / Aggregator
pipeline (`extract_json_polls`, `extract_all_polls`) and the Normalizer
(`format_polls_data`), shallowly embedded over `List Char` documents.

Python `None` results are modelled with `Option.none`; a Python exception
escaping a function is also modelled by `Option.none` on the functions that
can raise (the Normalizer).  JSON values are modelled by `JValue`; the
standard-library `json.loads` is modelled by `parseJson`, a recursive-descent
parser covering the JSON fragment these documents use (objects, arrays,
strings with simple escapes, integer numbers, booleans, null).
-/

set_option maxHeartbeats 1000000
set_option maxRecDepth 100000

namespace Polling

/-- Decoded JSON values (model of the values `json.loads` produces; numbers
are restricted to integers, which is the only numeric shape the claims and
the observed documents use). -/
inductive JValue where
  | null : JValue
  | bool (b : Bool) : JValue
  | num (n : Int) : JValue
  | str (s : String) : JValue
  | arr (elems : List JValue) : JValue
  | obj (fields : List (String × JValue)) : JValue

/-- `matchesAt pat l` : the pattern `pat` is an initial segment of `l`
(model of Python substring comparison `l[:len(pat)] == pat`). -/
def matchesAt : List Char → List Char → Bool
  | [], _ => true
  | _ :: _, [] => false
  | p :: ps, c :: rest => p = c && matchesAt ps rest

/-- Helper for `findSub`: scan positions left to right looking for the
first place where `pat` matches. -/
def findSubAux (pat : List Char) : List Char → Nat → Option Nat
  | [], pos => if matchesAt pat [] then some pos else none
  | c :: rest, pos =>
    if matchesAt pat (c :: rest) then some pos
    else findSubAux pat rest (pos + 1)

/-- Model of Python `text.find(pat, start)`: smallest index `≥ start` where
`pat` occurs in `text`, `none` when there is none (Python's `-1`). -/
def findSub (text pat : List Char) (start : Nat) : Option Nat :=
  findSubAux pat (text.drop start) start

/-- Model of Python `needle in hay` on strings (substring containment). -/
def strContains (needle hay : String) : Bool :=
  (findSub hay.data needle.data 0).isSome

/-- Model of Python `str.lower()`, character by character (ASCII case
folding suffices here). -/
def pyLower (s : String) : String :=
  String.mk (s.data.map Char.toLower)

/-! ## JSON parser (model of `json.loads` on the fragment used here) -/

/-- Skip JSON whitespace. -/
def skipWs : List Char → List Char
  | c :: rest =>
    if c = ' ' ∨ c = '\n' ∨ c = '\t' ∨ c = '\r' then skipWs rest else c :: rest
  | [] => []

/-- Parse the body of a JSON string literal (the opening quote already
consumed), handling the simple escapes; returns the content and the rest. -/
def parseStringAux : List Char → List Char → Option (List Char × List Char)
  | _, [] => none
  | acc, '"' :: rest => some (acc.reverse, rest)
  | acc, '\\' :: e :: rest =>
    match e with
    | '"' => parseStringAux ('"' :: acc) rest
    | '\\' => parseStringAux ('\\' :: acc) rest
    | '/' => parseStringAux ('/' :: acc) rest
    | 'n' => parseStringAux ('\n' :: acc) rest
    | 't' => parseStringAux ('\t' :: acc) rest
    | 'r' => parseStringAux ('\r' :: acc) rest
    | 'b' => parseStringAux ('\x08' :: acc) rest
    | 'f' => parseStringAux ('\x0C' :: acc) rest
    | _ => none
  | acc, c :: rest => parseStringAux (c :: acc) rest

/-- Split off the leading decimal digits. -/
def takeDigits : List Char → List Char × List Char
  | c :: rest =>
    if c.isDigit then
      let (ds, r) := takeDigits rest
      (c :: ds, r)
    else ([], c :: rest)
  | [] => ([], [])

/-- Numeric value of a digit list. -/
def digitsToNat : List Char → Nat → Nat
  | [], acc => acc
  | d :: ds, acc => digitsToNat ds (acc * 10 + (d.toNat - 48))

/-- Parse a (non-negative) JSON integer; floats are outside the modelled
fragment, so a fractional part or exponent makes the parse fail. -/
def parseNat (l : List Char) : Option (Nat × List Char) :=
  let (ds, rest) := takeDigits l
  if ds = [] then none
  else
    match rest with
    | '.' :: _ => none
    | 'e' :: _ => none
    | 'E' :: _ => none
    | _ => some (digitsToNat ds 0, rest)

/-- Parse a JSON integer with optional leading minus. -/
def parseNumber : List Char → Option (JValue × List Char)
  | '-' :: rest =>
    match parseNat rest with
    | some (n, r) => some (JValue.num (-(n : Int)), r)
    | none => none
  | l =>
    match parseNat l with
    | some (n, r) => some (JValue.num (n : Int), r)
    | none => none

/-- Insert a key/value pair the way Python `dict` construction does:
overwrite the value in place when the key exists, else append. -/
def insertKV (m : List (String × JValue)) (k : String) (v : JValue) :
    List (String × JValue) :=
  if m.any (fun p => p.1 = k) then
    m.map (fun p => if p.1 = k then (k, v) else p)
  else m ++ [(k, v)]

/-- Fold a member list into a Python-style dict (last duplicate wins,
position of first occurrence kept). -/
def buildDict (ps : List (String × JValue)) : List (String × JValue) :=
  ps.foldl (fun m p => insertKV m p.1 p.2) []

mutual

/-- Parse one JSON value (fuelled recursive descent). -/
def parseValue : Nat → List Char → Option (JValue × List Char)
  | 0, _ => none
  | fuel + 1, l =>
    match skipWs l with
    | [] => none
    | c :: rest =>
      if c = '"' then
        match parseStringAux [] rest with
        | some (s, r) => some (JValue.str (String.mk s), r)
        | none => none
      else if c = '[' then
        match skipWs rest with
        | ']' :: r2 => some (JValue.arr [], r2)
        | r2 =>
          match parseElems fuel r2 with
          | some (es, r3) => some (JValue.arr es, r3)
          | none => none
      else if c = '{' then
        match skipWs rest with
        | '}' :: r2 => some (JValue.obj [], r2)
        | r2 =>
          match parseMembers fuel r2 with
          | some (ms, r3) => some (JValue.obj (buildDict ms), r3)
          | none => none
      else if c = 't' then
        if matchesAt ['r', 'u', 'e'] rest then
          some (JValue.bool true, rest.drop 3)
        else none
      else if c = 'f' then
        if matchesAt ['a', 'l', 's', 'e'] rest then
          some (JValue.bool false, rest.drop 4)
        else none
      else if c = 'n' then
        if matchesAt ['u', 'l', 'l'] rest then
          some (JValue.null, rest.drop 3)
        else none
      else parseNumber (c :: rest)

/-- Parse the elements of a non-empty JSON array up to and including the
closing bracket. -/
def parseElems : Nat → List Char → Option (List JValue × List Char)
  | 0, _ => none
  | fuel + 1, l =>
    match parseValue fuel l with
    | none => none
    | some (v, r) =>
      match skipWs r with
      | ',' :: r2 =>
        match parseElems fuel r2 with
        | some (vs, r3) => some (v :: vs, r3)
        | none => none
      | ']' :: r2 => some ([v], r2)
      | _ => none

/-- Parse the members of a non-empty JSON object up to and including the
closing brace; members are returned in source order. -/
def parseMembers : Nat → List Char → Option (List (String × JValue) × List Char)
  | 0, _ => none
  | fuel + 1, l =>
    match skipWs l with
    | '"' :: rest =>
      match parseStringAux [] rest with
      | some (k, r) =>
        match skipWs r with
        | ':' :: r2 =>
          match parseValue fuel r2 with
          | some (v, r3) =>
            match skipWs r3 with
            | ',' :: r4 =>
              match parseMembers fuel r4 with
              | some (ms, r5) => some ((String.mk k, v) :: ms, r5)
              | none => none
            | '}' :: r4 => some ([(String.mk k, v)], r4)
            | _ => none
          | none => none
        | _ => none
      | none => none
    | _ => none

end

/-- Model of `json.loads`: parse one value and require that only whitespace
remains (Python rejects trailing data). -/
def parseJson (l : List Char) : Option JValue :=
  match parseValue (2 * l.length + 2) l with
  | some (v, rest) => if skipWs rest = [] then some v else none
  | none => none

/-! ## Decoder: un-escaping and object filtering (`extract_json_polls`,
lines 113–123) -/

/-- Model of `json_str.replace('\\"', '"')`: left-to-right, non-overlapping. -/
def unescQuotes : List Char → List Char
  | '\\' :: '"' :: rest => '"' :: unescQuotes rest
  | c :: rest => c :: unescQuotes rest
  | [] => []

/-- Model of `json_str.replace('\\\\', '\\')`: left-to-right, non-overlapping. -/
def unescBackslashes : List Char → List Char
  | '\\' :: '\\' :: rest => '\\' :: unescBackslashes rest
  | c :: rest => c :: unescBackslashes rest
  | [] => []

/-- A decoded poll record: one JSON object kept by the `isinstance(p, dict)`
filter. -/
abbrev PollRecord := List (String × JValue)

/-- `[p for p in polls if isinstance(p, dict)]`. -/
def filterObjs (elems : List JValue) : List PollRecord :=
  elems.filterMap (fun v =>
    match v with
    | JValue.obj m => some m
    | _ => none)

/-- Decode a captured span: un-escape when it was found in escaped form
(quotes first, then backslashes, as in the source), parse it as JSON and
keep the object elements.  The span always starts at the array's `[`, so a
successful parse is an array; parse failure is the code's
`json.JSONDecodeError` path, `(None, -1)`. -/
def decodeSpan (span : List Char) (escaped : Bool) : Option (List PollRecord) :=
  match parseJson (if escaped then unescBackslashes (unescQuotes span) else span) with
  | some (JValue.arr elems) => some (filterObjs elems)
  | _ => none

/-! ## Boundary Scanner (`extract_json_polls`, lines 82–131) -/

/-- One step of the `while i < len(html_content)` scan, fuelled (the fuel is
the length of the remaining text, so exhausting either is exactly the loop
condition failing).  State: previous character (for the unescaped
look-behind `html_content[i-1] == '\\'`; `none` means `i = 0`), remaining
text, bracket depth, in-string flag, absolute position `i`.  On the closing
bracket that returns the depth to zero it yields `i + 1`, the end offset the
code returns. -/
def scanAux (esc : Bool) : Nat → Option Char → List Char → Int → Bool → Nat → Option Nat
  | 0, _, _, _, _, _ => none
  | _ + 1, _, [], _, _, _ => none
  | fuel + 1, prev, c :: rest, depth, inStr, i =>
    if esc = true ∧ c = '\\' ∧ rest.head? = some '"' then
      scanAux esc fuel (some '"') rest.tail depth (!inStr) (i + 2)
    else
      let inStr' := if esc = false ∧ c = '"' ∧ ¬prev = some '\\' then !inStr else inStr
      if inStr' then scanAux esc fuel (some c) rest depth inStr' (i + 1)
      else if c = '[' then scanAux esc fuel (some c) rest (depth + 1) inStr' (i + 1)
      else if c = ']' then
        if depth - 1 = 0 then some (i + 1)
        else scanAux esc fuel (some c) rest (depth - 1) inStr' (i + 1)
      else scanAux esc fuel (some c) rest depth inStr' (i + 1)

/-- The character before position `i` (`none` when `i = 0`). -/
def prevChar (text : List Char) (i : Nat) : Option Char :=
  if i = 0 then none else text.get? (i - 1)

/-- The Boundary Scanner: walk from `arrayStart` and return the offset one
past the bracket that closes the array, or `none` when the text ends first. -/
def scanArray (text : List Char) (arrayStart : Nat) (esc : Bool) : Option Nat :=
  scanAux esc (text.drop arrayStart).length (prevChar text arrayStart)
    (text.drop arrayStart) 0 false arrayStart

/-- Ghost replay of the scanner's string-literal tracking over a finished
span, tallying the `[` and `]` characters that lie outside string literals
(exactly the characters whose brackets the scanner counts); returns
(opens, closes, final in-string flag). -/
def tallyAux (esc : Bool) : Nat → Option Char → List Char → Bool → Int → Int → Int × Int × Bool
  | 0, _, _, inStr, o, cl => (o, cl, inStr)
  | _ + 1, _, [], inStr, o, cl => (o, cl, inStr)
  | fuel + 1, prev, c :: rest, inStr, o, cl =>
    if esc = true ∧ c = '\\' ∧ rest.head? = some '"' then
      tallyAux esc fuel (some '"') rest.tail (!inStr) o cl
    else
      let inStr' := if esc = false ∧ c = '"' ∧ ¬prev = some '\\' then !inStr else inStr
      if inStr' then tallyAux esc fuel (some c) rest inStr' o cl
      else if c = '[' then tallyAux esc fuel (some c) rest inStr' (o + 1) cl
      else if c = ']' then tallyAux esc fuel (some c) rest inStr' o (cl + 1)
      else tallyAux esc fuel (some c) rest inStr' o cl

/-! ## Locator and per-anchor extraction (`extract_json_polls`, lines 69–131) -/

/-- The escaped anchor `\"polls\":[` (11 characters). -/
def escAnchor : List Char := "\\\"polls\\\":[".data

/-- The unescaped anchor `"polls":[` (9 characters). -/
def unescAnchor : List Char := "\"polls\":[".data

/-- Scan and decode one array whose opening bracket sits at `arrayStart`. -/
def extractAt (text : List Char) (arrayStart : Nat) (esc : Bool) :
    Option (List PollRecord × Nat) :=
  match scanArray text arrayStart esc with
  | none => none
  | some e =>
    match decodeSpan ((text.drop arrayStart).take (e - arrayStart)) esc with
    | none => none
    | some polls => some (polls, e)

/-- Model of `extract_json_polls(html_content, start_pos)`: find the next
anchor (escaped form first), scan the array and decode it.  `none` is the
code's `(None, -1)`. -/
def extract_json_polls (text : List Char) (startPos : Nat) :
    Option (List PollRecord × Nat) :=
  match findSub text escAnchor startPos with
  | some p => extractAt text (p + 10) true
  | none =>
    match findSub text unescAnchor startPos with
    | some p => extractAt text (p + 8) false
    | none => none

/-! ## Aggregator (`extract_all_polls`, lines 134–153) -/

/-- The `while True` loop of `extract_all_polls`, fuelled.  Each successful
iteration moves the search offset strictly forward and offsets are bounded
by the document length, so `text.length + 2` units of fuel always reach the
break. -/
def extractAllAux (text : List Char) : Nat → Nat → List PollRecord → List PollRecord
  | 0, _, acc => acc
  | fuel + 1, startPos, acc =>
    match extract_json_polls text startPos with
    | none => acc
    | some (polls, e) => extractAllAux text fuel e (acc ++ polls)

/-- Model of `extract_all_polls(html_content)`: accumulate every array's
records; `return all_polls if all_polls else None`. -/
def extract_all_polls (text : List Char) : Option (List PollRecord) :=
  match extractAllAux text (text.length + 2) 0 [] with
  | [] => none
  | all => some all

/-! ## Normalizer (`format_polls_data`, lines 156–187) -/

/-- Model of `poll.get(k, dflt)` on a decoded JSON object. -/
def pollGet (poll : List (String × JValue)) (k : String) (dflt : JValue) : JValue :=
  match poll.lookup k with
  | some v => v
  | none => dflt

/-- Python iteration over a decoded JSON value: lists yield their elements,
strings their characters, dicts their keys; numbers, booleans and `None`
raise `TypeError` (modelled `none`). -/
def pyIter : JValue → Option (List JValue)
  | JValue.arr es => some es
  | JValue.str s => some (s.data.map (fun ch => JValue.str (String.mk [ch])))
  | JValue.obj m => some (m.map (fun p => JValue.str p.1))
  | _ => none

/-- The `for candidate in candidates` loop: thread the `approve` and
`disapprove` accumulators through the list, overwriting on each match.
A non-dict element (`candidate.get` raises `AttributeError`) or a non-string
name (`.lower()` raises `AttributeError`) aborts the whole call, modelled
`none`. -/
def scanCandidates : List JValue → JValue → JValue → Option (JValue × JValue)
  | [], a, d => some (a, d)
  | item :: rest, a, d =>
    match item with
    | JValue.obj m =>
      match pollGet m "name" (JValue.str "") with
      | JValue.str s =>
        let name := pyLower s
        let value := pollGet m "value" (JValue.str "")
        if strContains "approve" name && !strContains "disapprove" name then
          scanCandidates rest value d
        else if strContains "disapprove" name then
          scanCandidates rest a value
        else scanCandidates rest a d
      | _ => none
    | _ => none

/-- Normalize one poll record into the 6-entry row the code appends;
`none` models an exception escaping the loop body. -/
def formatPoll (poll : PollRecord) : Option (List JValue) :=
  let pollster := pollGet poll "pollster" (pollGet poll "pollster_group_name" (JValue.str ""))
  let date := pollGet poll "date" (JValue.str "")
  let sample := pollGet poll "sampleSize" (JValue.str "")
  match pyIter (pollGet poll "candidate" (JValue.arr [])) with
  | none => none
  | some items =>
    match scanCandidates items (JValue.str "") (JValue.str "") with
    | none => none
    | some (approve, disapprove) =>
      let spreadData := pollGet poll "spread" (JValue.obj [])
      let spread :=
        match spreadData with
        | JValue.obj m => pollGet m "value" (JValue.str "")
        | _ => JValue.str ""
      some [pollster, date, sample, approve, disapprove, spread]

/-- The fixed header row. -/
def headers : List String := ["pollster", "date", "sample", "approve", "disapprove", "spread"]

/-- Model of `format_polls_data(polls)`: headers plus one row per record;
an exception anywhere aborts the whole call (`none`). -/
def format_polls_data (polls : List PollRecord) :
    Option (List String × List (List JValue)) :=
  match polls.mapM formatPoll with
  | some rows => some (headers, rows)
  | none => none

/-- Category test used to state what the candidate loop computes: the value
of a candidate entry that the `approve` branch accepts. -/
def catApprove : JValue → Option JValue
  | JValue.obj m =>
    match pollGet m "name" (JValue.str "") with
    | JValue.str s =>
      let name := pyLower s
      if strContains "approve" name && !strContains "disapprove" name then
        some (pollGet m "value" (JValue.str ""))
      else none
    | _ => none
  | _ => none

/-- The value of a candidate entry that the `disapprove` branch accepts. -/
def catDisapprove : JValue → Option JValue
  | JValue.obj m =>
    match pollGet m "name" (JValue.str "") with
    | JValue.str s =>
      if strContains "disapprove" (pyLower s) then
        some (pollGet m "value" (JValue.str ""))
      else none
    | _ => none
  | _ => none

/-- A candidate entry the loop body traverses without raising: a JSON object
whose `name` (when present) is a string. -/
def itemOk : JValue → Bool
  | JValue.obj m =>
    match pollGet m "name" (JValue.str "") with
    | JValue.str _ => true
    | _ => false
  | _ => false

/-- A `candidate` value the loop traverses without raising: an array of
well-shaped entries (the default `[]` for an absent field qualifies). -/
def candOk : JValue → Bool
  | JValue.arr items => items.all itemOk
  | _ => false

/-! ## Concrete data for the end-to-end claim -/

/-- The escaped `\"polls\":[...]` blob of the end-to-end example (one poll
by Acme with Approve 45, Disapprove 50, spread -5). -/
def acmeBlob : List Char :=
  ("\\\"polls\\\":[\x7b\\\"pollster\\\":\\\"Acme\\\",\\\"date\\\":\\\"2024-01-01\\\"," ++
   "\\\"sampleSize\\\":500,\\\"candidate\\\":[\x7b\\\"name\\\":\\\"Approve\\\"," ++
   "\\\"value\\\":45\x7d,\x7b\\\"name\\\":\\\"Disapprove\\\",\\\"value\\\":50\x7d]," ++
   "\\\"spread\\\":\x7b\\\"value\\\":-5\x7d\x7d]").data

/-- The poll record the blob decodes to. -/
def acmeRecord : PollRecord :=
  [("pollster", JValue.str "Acme"), ("date", JValue.str "2024-01-01"),
   ("sampleSize", JValue.num 500),
   ("candidate", JValue.arr
     [JValue.obj [("name", JValue.str "Approve"), ("value", JValue.num 45)],
      JValue.obj [("name", JValue.str "Disapprove"), ("value", JValue.num 50)]]),
   ("spread", JValue.obj [("value", JValue.num (-5))])]

/-! ## Ghost description of the Aggregator's full output -/

/-- All records the extraction chain recovers from offset `s` onward,
fuelled like the Aggregator's loop: follow each successful extraction to
its end offset and concatenate, in order of discovery. -/
def collectFromAux (text : List Char) : Nat → Nat → List PollRecord
  | 0, _ => []
  | fuel + 1, s =>
    match extract_json_polls text s with
    | none => []
    | some (polls, e) => polls ++ collectFromAux text fuel e

/-- Canonical fuel: offsets strictly increase and are bounded by the
document length, so `text.length + 1 - s` steps always reach the failing
call. -/
def collectFrom (text : List Char) (s : Nat) : List PollRecord :=
  collectFromAux text (text.length + 1 - s) s


end Polling

namespace Polling

/-! ## Scanner lemmas -/

theorem scanAux_nil (esc : Bool) (f : Nat) (prev : Option Char) (d : Int) (b : Bool) (i : Nat) :
    scanAux esc f prev [] d b i = none := by
  cases f <;> simp [scanAux]

theorem scanAux_bound (esc : Bool) :
    ∀ f (prev : Option Char) (l : List Char) (d : Int) (b : Bool) (i e : Nat),
      scanAux esc f prev l d b i = some e → i < e ∧ e ≤ i + l.length := by
  intro f
  induction f with
  | zero => intro prev l d b i e h; simp [scanAux] at h
  | succ f ih =>
    intro prev l d b i e h
    cases l with
    | nil => simp [scanAux] at h
    | cons c rest =>
      simp only [scanAux] at h
      by_cases h1 : esc = true ∧ c = '\\' ∧ rest.head? = some '"'
      · rw [if_pos h1] at h
        obtain ⟨-, -, hh⟩ := h1
        cases rest with
        | nil => simp at hh
        | cons r rs =>
          obtain ⟨hlt, hle⟩ := ih _ _ _ _ _ _ h
          simp only [List.tail_cons] at hle
          simp only [List.length_cons]
          omega
      · rw [if_neg h1] at h
        split_ifs at h
        all_goals first
          | (injection h with h'; simp only [List.length_cons]; omega)
          | (obtain ⟨hlt, hle⟩ := ih _ _ _ _ _ _ h; simp only [List.length_cons]; omega)

end Polling

namespace Polling

theorem scanAux_lift (esc : Bool) :
    ∀ f f' (prev : Option Char) (l suf : List Char) (d : Int) (b : Bool) (j e i : Nat),
      scanAux esc f prev l d b j = some e → f ≤ f' →
      scanAux esc f' prev (l ++ suf) d b (i + j) = some (i + e) := by
  intro f
  induction f with
  | zero => intro f' prev l suf d b j e i h _; simp [scanAux] at h
  | succ f ih =>
    intro f' prev l suf d b j e i h hf
    cases f' with
    | zero => omega
    | succ f'' =>
    have hf'' : f ≤ f'' := by omega
    cases l with
    | nil => rw [scanAux_nil] at h; exact absurd h (by simp)
    | cons c rest =>
      rw [List.cons_append]
      simp only [scanAux] at h ⊢
      by_cases h1 : esc = true ∧ c = '\\' ∧ rest.head? = some '"'
      · obtain ⟨he, hc, hh⟩ := h1
        cases rest with
        | nil => simp at hh
        | cons r rs =>
          injection hh with hr
          rw [if_pos ⟨he, hc, by simp [hr]⟩] at h
          rw [if_pos ⟨he, hc, by simp [List.cons_append, hr]⟩]
          simp only [List.tail_cons] at h ⊢
          have : i + j + 2 = i + (j + 2) := by omega
          rw [List.cons_append, List.tail_cons, this]
          exact ih _ _ _ _ _ _ _ _ _ h hf''
      · rw [if_neg h1] at h
        by_cases h1' : esc = true ∧ c = '\\' ∧ (rest ++ suf).head? = some '"'
        · -- only possible when `rest = []`; then the original scan dies on `[]`
          exfalso
          cases rest with
          | cons r rs => exact h1 (by simpa using h1')
          | nil =>
            obtain ⟨he, hc, -⟩ := h1'
            subst hc
            simp [he, scanAux_nil] at h
        · rw [if_neg h1']
          split_ifs at h <;> split_ifs <;>
            first
              | (injection h with h'; omega)
              | (injection h with h'; simp [h'.symm]; omega)
              | (have h2 : i + j + 1 = i + (j + 1) := by omega
                 rw [h2]
                 exact ih _ _ _ _ _ _ _ _ _ h hf'')

end Polling

namespace Polling

theorem scanAux_prev_irrel :
    ∀ f (p p' : Option Char) (l : List Char) (d : Int) (b : Bool) (i : Nat),
      scanAux true f p l d b i = scanAux true f p' l d b i := by
  intro f
  induction f with
  | zero => intro p p' l d b i; simp [scanAux]
  | succ f ih =>
    intro p p' l d b i
    cases l with
    | nil => simp [scanAux]
    | cons c rest => simp [scanAux]

theorem head_take_some {α : Type} {n : Nat} {l : List α} {a : α}
    (h : (l.take n).head? = some a) : l.head? = some a := by
  cases n with
  | zero => simp at h
  | succ n =>
    cases l with
    | nil => simp at h
    | cons x xs => simpa using h

theorem scanAux_balance (esc : Bool) :
    ∀ f (prev : Option Char) (l : List Char) (d : Int) (b : Bool) (i e : Nat),
      scanAux esc f prev l d b i = some e →
      ∀ o cl : Int, ∃ o' cl' : Int,
        tallyAux esc f prev (l.take (e - i)) b o cl = (o', cl', false) ∧
        o' - cl' = o - cl - d := by
  intro f
  induction f with
  | zero => intro prev l d b i e h o cl; simp [scanAux] at h
  | succ f ih =>
    intro prev l d b i e h o cl
    cases l with
    | nil => simp [scanAux] at h
    | cons c rest =>
      simp only [scanAux] at h
      by_cases h1 : esc = true ∧ c = '\\' ∧ rest.head? = some '"'
      · rw [if_pos h1] at h
        obtain ⟨he, hc, hh⟩ := h1
        cases rest with
        | nil => simp at hh
        | cons r rs =>
          injection hh with hr
          have hb2 := scanAux_bound esc f (some '"') rs d (!b) (i + 2) e (by simpa using h)
          have hn : e - i = (e - (i + 2)) + 1 + 1 := by omega
          rw [hn, List.take_succ_cons, List.take_succ_cons]
          simp only [List.tail_cons] at h
          obtain ⟨o2, cl2, htal, hsum⟩ := ih _ _ _ _ _ _ h o cl
          refine ⟨o2, cl2, ?_, hsum⟩
          simp only [tallyAux, hr]
          rw [if_pos ⟨he, hc, by simp⟩]
          simpa using htal
      · rw [if_neg h1] at h
        -- the single-character step: the tally mirrors it exactly
        have hstep : ∀ X : List Char, ¬(esc = true ∧ c = '\\' ∧ X.head? = some '"') →
            tallyAux esc (f + 1) prev (c :: X) b o cl =
              (if (if esc = false ∧ c = '"' ∧ ¬prev = some '\\' then !b else b) = true then
                tallyAux esc f (some c) X
                  (if esc = false ∧ c = '"' ∧ ¬prev = some '\\' then !b else b) o cl
               else if c = '[' then
                tallyAux esc f (some c) X
                  (if esc = false ∧ c = '"' ∧ ¬prev = some '\\' then !b else b) (o + 1) cl
               else if c = ']' then
                tallyAux esc f (some c) X
                  (if esc = false ∧ c = '"' ∧ ¬prev = some '\\' then !b else b) o (cl + 1)
               else
                tallyAux esc f (some c) X
                  (if esc = false ∧ c = '"' ∧ ¬prev = some '\\' then !b else b) o cl) := by
          intro X hX
          simp only [tallyAux]
          rw [if_neg hX]
        by_cases hs : (if esc = false ∧ c = '"' ∧ ¬prev = some '\\' then !b else b) = true
        · rw [if_pos hs] at h
          have hb2 := scanAux_bound esc f (some c) rest _ _ (i + 1) e h
          have hn : e - i = (e - (i + 1)) + 1 := by omega
          rw [hn, List.take_succ_cons]
          obtain ⟨o2, cl2, htal, hsum⟩ := ih _ _ _ _ _ _ h o cl
          refine ⟨o2, cl2, ?_, hsum⟩
          rw [hstep _ (fun hx => h1 ⟨hx.1, hx.2.1, head_take_some hx.2.2⟩)]
          rw [if_pos hs]
          exact htal
        · rw [if_neg hs] at h
          by_cases hb1 : c = '['
          · rw [if_pos hb1] at h
            have hb2 := scanAux_bound esc f (some c) rest _ _ (i + 1) e h
            have hn : e - i = (e - (i + 1)) + 1 := by omega
            rw [hn, List.take_succ_cons]
            obtain ⟨o2, cl2, htal, hsum⟩ := ih _ _ _ _ _ _ h (o + 1) cl
            refine ⟨o2, cl2, ?_, by omega⟩
            rw [hstep _ (fun hx => h1 ⟨hx.1, hx.2.1, head_take_some hx.2.2⟩)]
            rw [if_neg hs, if_pos hb1]
            exact htal
          · rw [if_neg hb1] at h
            by_cases hb2c : c = ']'
            · rw [if_pos hb2c] at h
              by_cases hd : d - 1 = 0
              · rw [if_pos hd] at h
                injection h with hval
                have hn : e - i = 1 := by omega
                rw [hn, List.take_succ_cons, List.take_zero]
                refine ⟨o, cl + 1, ?_, by omega⟩
                rw [hstep [] (by simp)]
                rw [if_neg hs, if_neg hb1, if_pos hb2c]
                have hsf : (if esc = false ∧ c = '"' ∧ ¬prev = some '\\' then !b else b) = false := by
                  cases hx : (if esc = false ∧ c = '"' ∧ ¬prev = some '\\' then !b else b) with
                  | false => rfl
                  | true => exact absurd hx hs
                rw [hsf]
                cases f <;> simp [tallyAux]
              · rw [if_neg hd] at h
                have hb2 := scanAux_bound esc f (some c) rest _ _ (i + 1) e h
                have hn : e - i = (e - (i + 1)) + 1 := by omega
                rw [hn, List.take_succ_cons]
                obtain ⟨o2, cl2, htal, hsum⟩ := ih _ _ _ _ _ _ h o (cl + 1)
                refine ⟨o2, cl2, ?_, by omega⟩
                rw [hstep _ (fun hx => h1 ⟨hx.1, hx.2.1, head_take_some hx.2.2⟩)]
                rw [if_neg hs, if_neg hb1, if_pos hb2c]
                exact htal
            · rw [if_neg hb2c] at h
              have hb2 := scanAux_bound esc f (some c) rest _ _ (i + 1) e h
              have hn : e - i = (e - (i + 1)) + 1 := by omega
              rw [hn, List.take_succ_cons]
              obtain ⟨o2, cl2, htal, hsum⟩ := ih _ _ _ _ _ _ h o cl
              refine ⟨o2, cl2, ?_, hsum⟩
              rw [hstep _ (fun hx => h1 ⟨hx.1, hx.2.1, head_take_some hx.2.2⟩)]
              rw [if_neg hs, if_neg hb1, if_neg hb2c]
              exact htal

end Polling

namespace Polling

/-! ## Locator lemmas -/

theorem findSubAux_ge (pat : List Char) :
    ∀ (l : List Char) (pos p : Nat), findSubAux pat l pos = some p → pos ≤ p := by
  intro l
  induction l with
  | nil =>
    intro pos p h
    simp only [findSubAux] at h
    split_ifs at h
    injection h with h2
    omega
  | cons c rest ih =>
    intro pos p h
    simp only [findSubAux] at h
    split_ifs at h
    · injection h with h2; omega
    · have := ih (pos + 1) p h
      omega

theorem findSub_ge (text pat : List Char) (s p : Nat) (h : findSub text pat s = some p) :
    s ≤ p :=
  findSubAux_ge pat (text.drop s) s p h

theorem findSub_occurs (text pat : List Char) (s p : Nat)
    (h : findSub text pat s = some p) :
    matchesAt pat (text.drop p) = true ∧ s ≤ p := by
  refine ⟨?_, findSub_ge text pat s p h⟩
  unfold findSub at h
  have key : ∀ (l : List Char) (pos : Nat), l = text.drop pos →
      findSubAux pat l pos = some p → matchesAt pat (text.drop p) = true := by
    intro l
    induction l with
    | nil =>
      intro pos hl hx
      simp only [findSubAux] at hx
      split_ifs at hx with hm
      injection hx with h2
      subst h2
      rw [← hl]
      exact hm
    | cons c rest ih =>
      intro pos hl hx
      simp only [findSubAux] at hx
      split_ifs at hx with hm
      · injection hx with h2; subst h2; rw [← hl]; exact hm
      · refine ih (pos + 1) ?_ hx
        have h3 := congrArg List.tail hl
        simpa [List.tail_drop] using h3
  exact key (text.drop s) s rfl h

theorem findSub_found (text pat : List Char) (s p : Nat)
    (hocc : matchesAt pat (text.drop p) = true) (hsp : s ≤ p) :
    ∃ q, findSub text pat s = some q ∧ q ≤ p := by
  unfold findSub
  have key : ∀ (n : Nat) (l : List Char) (pos : Nat), l = text.drop pos → pos ≤ p →
      n = p - pos → ∃ q, findSubAux pat l pos = some q ∧ q ≤ p := by
    intro n
    induction n with
    | zero =>
      intro l pos hl hpos hn
      have hpp : pos = p := by omega
      subst hpp
      subst hl
      cases hcl : text.drop pos with
      | nil =>
        rw [hcl] at hocc
        simp only [hcl, findSubAux]
        rw [if_pos hocc]
        exact ⟨pos, rfl, le_refl _⟩
      | cons c rest =>
        rw [hcl] at hocc
        simp only [hcl, findSubAux]
        rw [if_pos hocc]
        exact ⟨pos, rfl, le_refl _⟩
    | succ n ih =>
      intro l pos hl hpos hn
      cases l with
      | nil =>
        cases pat with
        | nil => exact ⟨pos, by simp [findSubAux, matchesAt], hpos⟩
        | cons a as =>
          exfalso
          have hdp : text.drop p = [] := by
            have h2 : (text.drop pos).drop (p - pos) = text.drop (pos + (p - pos)) :=
              List.drop_drop (p - pos) pos text
            have h3 : pos + (p - pos) = p := by omega
            rw [h3] at h2
            rw [← h2, ← hl]
            simp
          rw [hdp] at hocc
          simp [matchesAt] at hocc
      | cons c rest =>
        simp only [findSubAux]
        split_ifs with hm
        · exact ⟨pos, rfl, hpos⟩
        · refine ih rest (pos + 1) ?_ ?_ (by omega)
          · have h3 := congrArg List.tail hl
            simpa [List.tail_drop] using h3
          · rcases Nat.lt_or_ge pos p with hlt | hge
            · omega
            · have hpp : pos = p := by omega
              subst hpp
              rw [← hl] at hocc
              exact absurd hocc hm
  exact key (p - s) (text.drop s) s rfl hsp rfl

theorem matchesAt_append (pat : List Char) :
    ∀ (l suf : List Char), matchesAt pat l = true → matchesAt pat (l ++ suf) = true := by
  induction pat with
  | nil => intro l suf _; rw [matchesAt]
  | cons p ps ih =>
    intro l suf h
    cases l with
    | nil => simp [matchesAt] at h
    | cons c rest =>
      rw [List.cons_append]
      rw [matchesAt] at h ⊢
      simp only [Bool.and_eq_true] at h ⊢
      exact ⟨h.1, ih rest suf h.2⟩

theorem matchesAt_lt_length (a : Char) (pat l : List Char) (q : Nat)
    (h : matchesAt (a :: pat) (l.drop q) = true) : q < l.length := by
  by_contra hge
  have : l.drop q = [] := List.drop_eq_nil_of_le (by omega)
  rw [this] at h
  simp [matchesAt] at h

/-! ## Extraction bounds -/

theorem extractAt_bound (text : List Char) (a : Nat) (esc : Bool)
    (l : List PollRecord) (e : Nat) (h : extractAt text a esc = some (l, e)) :
    a < e ∧ e ≤ text.length := by
  unfold extractAt at h
  cases hscan : scanArray text a esc with
  | none => rw [hscan] at h; exact absurd h (by simp)
  | some e' =>
    rw [hscan] at h
    dsimp only at h
    have he : e = e' := by
      cases hdec : decodeSpan ((text.drop a).take (e' - a)) esc with
      | none => rw [hdec] at h; exact absurd h (by simp)
      | some polls =>
        rw [hdec] at h
        injection h with h'
        exact (congrArg Prod.snd h').symm
    subst he
    unfold scanArray at hscan
    have hb := scanAux_bound esc _ _ _ _ _ _ _ hscan
    rw [List.length_drop] at hb
    omega

theorem extract_progress (text : List Char) (s : Nat) (l : List PollRecord) (e : Nat)
    (h : extract_json_polls text s = some (l, e)) :
    s < e ∧ e ≤ text.length := by
  unfold extract_json_polls at h
  cases hf : findSub text escAnchor s with
  | some p =>
    rw [hf] at h
    have hp := findSub_ge text escAnchor s p hf
    have hb := extractAt_bound text (p + 10) true l e h
    omega
  | none =>
    rw [hf] at h
    cases hf2 : findSub text unescAnchor s with
    | some p =>
      rw [hf2] at h
      have hp := findSub_ge text unescAnchor s p hf2
      have hb := extractAt_bound text (p + 8) false l e h
      omega
    | none => rw [hf2] at h; exact absurd h (by simp)

/-- C6.  Monotonic progress of the Locator/Scanner pair: whenever
`extract_json_polls` succeeds, the returned end offset is strictly greater
than the start offset it was called with, and is bounded by the document
length — so the Aggregator's search offset strictly increases and
`extract_all_polls` terminates. -/
theorem c6_progress (text : List Char) (s : Nat) (l : List PollRecord) (e : Nat)
    (h : extract_json_polls text s = some (l, e)) :
    s < e ∧ e ≤ text.length :=
  extract_progress text s l e h

/-- Witness for C6 at the concrete document `"polls":[]`. -/
theorem c6_progress_w :
    extract_json_polls "\"polls\":[]".data 0 = some ([], 10) ∧
    0 < 10 ∧ 10 ≤ ("\"polls\":[]".data).length :=
  ⟨rfl, c6_progress "\"polls\":[]".data 0 [] 10 rfl⟩

end Polling

namespace Polling

/-- C4.  Balance invariant of the Boundary Scanner: whenever the scan
accepts a span `text[arrayStart:e]`, replaying that span's string-literal
tracking shows equal counts of `[` and `]` outside string literals, and the
in-string flag is false at the end (no string literal left open). -/
theorem c4_balance_invariant (text : List Char) (arrayStart : Nat) (esc : Bool) (e : Nat)
    (h : scanArray text arrayStart esc = some e) :
    ∃ k : Int, tallyAux esc (text.drop arrayStart).length (prevChar text arrayStart)
      ((text.drop arrayStart).take (e - arrayStart)) false 0 0 = (k, k, false) := by
  unfold scanArray at h
  obtain ⟨o2, cl2, htal, hsum⟩ := scanAux_balance esc _ _ _ _ _ _ _ h 0 0
  have hk : o2 = cl2 := by omega
  exact ⟨o2, by rw [htal, hk]⟩

/-- Witness for C4 at the concrete document `"polls":[]` (span `[]`:
one `[`, one `]`, flag closed). -/
theorem c4_balance_invariant_w :
    scanArray "\"polls\":[]".data 8 false = some 10 ∧
    ∃ k : Int, tallyAux false (("\"polls\":[]".data.drop 8).length)
      (prevChar "\"polls\":[]".data 8)
      (("\"polls\":[]".data.drop 8).take (10 - 8)) false 0 0 = (k, k, false) :=
  ⟨rfl, c4_balance_invariant "\"polls\":[]".data 8 false 10 rfl⟩

/-- C9.  In ESCAPED mode the in-string flag is toggled only by the
two-character sequence `\"`, consumed as a unit (second equation); a bare
`"` never changes the in-string state, and scanning continues at the next
character with depth, flag and counting unchanged (first equation). -/
theorem c9_escaped_quote_toggle (f : Nat) (prev : Option Char) (rest : List Char)
    (d : Int) (b : Bool) (i : Nat) :
    scanAux true (f + 1) prev ('"' :: rest) d b i
      = scanAux true f (some '"') rest d b (i + 1) ∧
    scanAux true (f + 1) prev ('\\' :: '"' :: rest) d b i
      = scanAux true f (some '"') rest d (!b) (i + 2) := by
  constructor
  · cases b <;> simp [scanAux]
  · simp [scanAux]

end Polling

namespace Polling

/-! ## Aggregator lemmas and claims -/

theorem extractAllAux_step (text : List Char) (fuel s : Nat) (acc : List PollRecord) :
    extractAllAux text (fuel + 1) s acc =
      match extract_json_polls text s with
      | none => acc
      | some (polls, e) => extractAllAux text fuel e (acc ++ polls) := rfl

/-- C2 counterexample: on a document with no anchor at all,
`extract_all_polls` returns the `None` sentinel, which is not the empty
sequence of records the claim promises. -/
theorem c2_no_anchor_cex :
    extract_all_polls "hello world".data = none ∧
    extract_all_polls "hello world".data ≠ some ([] : List PollRecord) := by
  have h1 : extract_all_polls "hello world".data = none := rfl
  refine ⟨h1, ?_⟩
  rw [h1]
  simp

/-- C2 (amended).  When neither form of the anchor occurs anywhere in the
document, `extract_all_polls` returns `None` — the falsy no-data sentinel
its caller uses to fall back to direct-markup extraction — rather than
raising; it does not return an empty list. -/
theorem c2_no_anchor_returns_none (text : List Char)
    (h1 : findSub text escAnchor 0 = none) (h2 : findSub text unescAnchor 0 = none) :
    extract_all_polls text = none := by
  have hstep : extract_json_polls text 0 = none := by
    unfold extract_json_polls
    rw [h1, h2]
  have haux : extractAllAux text (text.length + 2) 0 [] = [] := by
    have hsucc : text.length + 2 = text.length + 1 + 1 := rfl
    rw [hsucc, extractAllAux_step, hstep]
  unfold extract_all_polls
  rw [haux]

/-- Witness for C2 (amended) on the anchor-free document `hello world`. -/
theorem c2_no_anchor_returns_none_w :
    findSub "hello world".data escAnchor 0 = none ∧
    extract_all_polls "hello world".data = none :=
  ⟨rfl, c2_no_anchor_returns_none "hello world".data rfl rfl⟩

/-- C5 counterexample: a document whose two anchors are both successfully
extracted but decode to zero records each (`["a"]` and `["b"]` hold no
objects); `extract_all_polls` then returns `None`, not the concatenation
(the empty list) of the two arrays' decoded records. -/
theorem c5_concat_cex :
    extract_json_polls "\"polls\":[\"a\"]\"polls\":[\"b\"]".data 0 = some ([], 13) ∧
    extract_json_polls "\"polls\":[\"a\"]\"polls\":[\"b\"]".data 13 = some ([], 26) ∧
    extract_all_polls "\"polls\":[\"a\"]\"polls\":[\"b\"]".data = none ∧
    extract_all_polls "\"polls\":[\"a\"]\"polls\":[\"b\"]".data
      ≠ some (([] : List PollRecord) ++ []) := by
  have hn : extract_all_polls "\"polls\":[\"a\"]\"polls\":[\"b\"]".data = none := rfl
  refine ⟨rfl, rfl, hn, ?_⟩
  rw [hn]
  simp

theorem collectFromAux_step (text : List Char) (fuel s : Nat) :
    collectFromAux text (fuel + 1) s =
      match extract_json_polls text s with
      | none => []
      | some (polls, e) => polls ++ collectFromAux text fuel e := rfl

/-- The Aggregator's loop always produces its accumulator followed by the
chain of records extractable from the current offset (same fuel). -/
theorem extractAllAux_collect (text : List Char) :
    ∀ (fuel s : Nat) (acc : List PollRecord),
      extractAllAux text fuel s acc = acc ++ collectFromAux text fuel s := by
  intro fuel
  induction fuel with
  | zero => intro s acc; simp [extractAllAux, collectFromAux]
  | succ fuel ih =>
    intro s acc
    rw [extractAllAux_step, collectFromAux_step]
    cases hx : extract_json_polls text s with
    | none => simp
    | some pe =>
      obtain ⟨polls, e⟩ := pe
      dsimp only
      rw [ih e (acc ++ polls), List.append_assoc]

/-- Any fuel at least `text.length + 1 - s` yields the same chain: each
successful extraction strictly advances the offset within the document. -/
theorem collectFromAux_fuel (text : List Char) :
    ∀ (fuel fuel' s : Nat), text.length + 1 - s ≤ fuel → text.length + 1 - s ≤ fuel' →
      collectFromAux text fuel s = collectFromAux text fuel' s := by
  intro fuel
  induction fuel with
  | zero =>
    intro fuel' s hf hf'
    cases fuel' with
    | zero => rfl
    | succ f' =>
      rw [collectFromAux_step]
      cases hx : extract_json_polls text s with
      | none => rfl
      | some pe =>
        obtain ⟨polls, e⟩ := pe
        have := extract_progress text s polls e hx
        omega
  | succ fuel ih =>
    intro fuel' s hf hf'
    cases fuel' with
    | zero =>
      rw [collectFromAux_step]
      cases hx : extract_json_polls text s with
      | none => rfl
      | some pe =>
        obtain ⟨polls, e⟩ := pe
        have := extract_progress text s polls e hx
        omega
    | succ f' =>
      rw [collectFromAux_step, collectFromAux_step]
      cases hx : extract_json_polls text s with
      | none => rfl
      | some pe =>
        obtain ⟨polls, e⟩ := pe
        dsimp only
        have := extract_progress text s polls e hx
        rw [ih f' e (by omega) (by omega)]

/-- C5 (amended).  A document with two (or more) extractable anchors yields
the concatenation of every array's decoded records in document order: the
first array's records, then the second's, then everything the chain
recovers from the second array's end offset onward — provided at least one
record was decoded; when every array decodes to zero records the function
returns `None` instead of the empty concatenation. -/
theorem c5_concat_all_arrays (text : List Char) (l1 l2 : List PollRecord) (e1 e2 : Nat)
    (h1 : extract_json_polls text 0 = some (l1, e1))
    (h2 : extract_json_polls text e1 = some (l2, e2))
    (hne : l1 ++ (l2 ++ collectFrom text e2) ≠ []) :
    extract_all_polls text = some (l1 ++ (l2 ++ collectFrom text e2)) := by
  have hp1 := extract_progress text 0 l1 e1 h1
  have hp2 := extract_progress text e1 l2 e2 h2
  have key : extractAllAux text (text.length + 2) 0 []
      = l1 ++ (l2 ++ collectFrom text e2) := by
    rw [show text.length + 2 = text.length + 1 + 1 from rfl]
    rw [extractAllAux_step, h1]
    dsimp only
    rw [extractAllAux_collect, List.nil_append]
    congr 1
    rw [collectFromAux_step, h2]
    dsimp only
    congr 1
    unfold collectFrom
    exact collectFromAux_fuel text _ _ _ (by omega) (by omega)
  unfold extract_all_polls
  rw [key]
  cases hl : l1 ++ (l2 ++ collectFrom text e2) with
  | nil => exact absurd hl hne
  | cons a as => rfl

/-- Witness for C5 (amended): first array decodes to one record, the second
to none, and no further anchor follows; the result is the concatenation of
the whole chain. -/
theorem c5_concat_all_arrays_w :
    extract_json_polls "\"polls\":[\x7b\"a\":1\x7d]\"polls\":[\"x\"]".data 0
      = some ([[("a", JValue.num 1)]], 17) ∧
    extract_json_polls "\"polls\":[\x7b\"a\":1\x7d]\"polls\":[\"x\"]".data 17
      = some ([], 30) ∧
    extract_all_polls "\"polls\":[\x7b\"a\":1\x7d]\"polls\":[\"x\"]".data
      = some ([[("a", JValue.num 1)]]
          ++ ([] ++ collectFrom "\"polls\":[\x7b\"a\":1\x7d]\"polls\":[\"x\"]".data 30)) :=
  ⟨rfl, rfl, c5_concat_all_arrays "\"polls\":[\x7b\"a\":1\x7d]\"polls\":[\"x\"]".data
    [[("a", JValue.num 1)]] [] 17 30 rfl rfl (by simp)⟩

/-- C10.  When a located span parses as a JSON array whose elements are all
filtered out as non-objects, the per-anchor extraction returns the empty
record list together with the span's end offset (not the NOT_FOUND
sentinel), and one aggregator iteration on such a result just moves the
search offset to that end offset, continuing the scan. -/
theorem c10_empty_span_continues (text : List Char) (a : Nat) (esc : Bool) (e : Nat)
    (elems : List JValue)
    (hscan : scanArray text a esc = some e)
    (hparse : parseJson (if esc then unescBackslashes (unescQuotes ((text.drop a).take (e - a)))
        else (text.drop a).take (e - a)) = some (JValue.arr elems))
    (hfilter : filterObjs elems = []) :
    extractAt text a esc = some ([], e) ∧
    ∀ (s fuel : Nat) (acc : List PollRecord),
      extract_json_polls text s = some ([], e) →
      extractAllAux text (fuel + 1) s acc = extractAllAux text fuel e acc := by
  constructor
  · unfold extractAt
    rw [hscan]
    dsimp only
    unfold decodeSpan
    rw [hparse]
    dsimp only
    rw [hfilter]
  · intro s fuel acc hx
    rw [extractAllAux_step, hx]
    dsimp only
    rw [List.append_nil]

/-- Witness for C10 on `"polls":["a"]` (the array holds a single string,
filtered out). -/
theorem c10_empty_span_continues_w :
    extractAt "\"polls\":[\"a\"]".data 8 false = some ([], 13) ∧
    extractAllAux "\"polls\":[\"a\"]".data (0 + 1) 0 []
      = extractAllAux "\"polls\":[\"a\"]".data 0 13 [] := by
  have h := c10_empty_span_continues "\"polls\":[\"a\"]".data 8 false 13
    [JValue.str "a"] rfl rfl rfl
  exact ⟨h.1, h.2 0 0 [] rfl⟩

end Polling

namespace Polling

/-! ## Normalizer lemmas and claims -/

theorem getLastD_cons {α : Type} (a x : α) (l : List α) :
    ((a :: l).getLast?).getD x = (l.getLast?).getD a := by
  induction l generalizing a x with
  | nil => rfl
  | cons b bs ih =>
    rw [List.getLast?_cons_cons]
    rw [ih b x, ih b a]

/-- What the candidate loop computes: each accumulator ends up holding the
value of the LAST entry its branch accepted (or its initial value when no
entry matched). -/
theorem scanCandidates_last :
    ∀ (items : List JValue) (a d a2 d2 : JValue),
      scanCandidates items a d = some (a2, d2) →
      a2 = ((items.filterMap catApprove).getLast?).getD a ∧
      d2 = ((items.filterMap catDisapprove).getLast?).getD d := by
  intro items
  induction items with
  | nil =>
    intro a d a2 d2 h
    simp only [scanCandidates] at h
    injection h with h2
    injection h2 with h3 h4
    simp [← h3, ← h4]
  | cons item rest ih =>
    intro a d a2 d2 h
    simp only [scanCandidates] at h
    cases item with
    | obj m =>
      dsimp only at h
      cases hname : pollGet m "name" (JValue.str "") with
      | str s =>
        rw [hname] at h
        dsimp only at h
        by_cases hap : (strContains "approve" (pyLower s)
            && !strContains "disapprove" (pyLower s)) = true
        · rw [if_pos hap] at h
          obtain ⟨ha, hd⟩ := ih _ _ _ _ h
          have hca : catApprove (JValue.obj m) = some (pollGet m "value" (JValue.str "")) := by
            simp only [catApprove, hname]
            rw [if_pos hap]
          have hcd : catDisapprove (JValue.obj m) = none := by
            simp only [catDisapprove, hname]
            simp only [Bool.and_eq_true, Bool.not_eq_eq_eq_not, Bool.not_true] at hap
            simp [hap.2]
          constructor
          · rw [ha, List.filterMap_cons, hca, getLastD_cons]
          · rw [hd, List.filterMap_cons, hcd]
        · rw [if_neg hap] at h
          by_cases hdis : strContains "disapprove" (pyLower s) = true
          · rw [if_pos hdis] at h
            obtain ⟨ha, hd⟩ := ih _ _ _ _ h
            have hca : catApprove (JValue.obj m) = none := by
              simp only [catApprove, hname]
              rw [if_neg hap]
            have hcd : catDisapprove (JValue.obj m)
                = some (pollGet m "value" (JValue.str "")) := by
              simp only [catDisapprove, hname]
              rw [if_pos hdis]
            constructor
            · rw [ha, List.filterMap_cons, hca]
            · rw [hd, List.filterMap_cons, hcd, getLastD_cons]
          · rw [if_neg hdis] at h
            obtain ⟨ha, hd⟩ := ih _ _ _ _ h
            have hca : catApprove (JValue.obj m) = none := by
              simp only [catApprove, hname]
              rw [if_neg hap]
            have hcd : catDisapprove (JValue.obj m) = none := by
              simp only [catDisapprove, hname]
              rw [if_neg hdis]
            constructor
            · rw [ha, List.filterMap_cons, hca]
            · rw [hd, List.filterMap_cons, hcd]
      | null => rw [hname] at h; exact Option.noConfusion h
      | bool b => rw [hname] at h; exact Option.noConfusion h
      | num n => rw [hname] at h; exact Option.noConfusion h
      | arr es => rw [hname] at h; exact Option.noConfusion h
      | obj m2 => rw [hname] at h; exact Option.noConfusion h
    | null => exact Option.noConfusion h
    | bool b => exact Option.noConfusion h
    | num n => exact Option.noConfusion h
    | str s => exact Option.noConfusion h
    | arr es => exact Option.noConfusion h

/-- The candidate loop never raises on well-shaped entries. -/
theorem scanCandidates_total :
    ∀ (items : List JValue), items.all itemOk = true →
      ∀ a d : JValue, ∃ r, scanCandidates items a d = some r := by
  intro items
  induction items with
  | nil => intro _ a d; exact ⟨(a, d), rfl⟩
  | cons item rest ih =>
    intro hall a d
    simp only [List.all_cons, Bool.and_eq_true] at hall
    obtain ⟨hok, hrest⟩ := hall
    cases item with
    | obj m =>
      simp only [scanCandidates]
      cases hname : pollGet m "name" (JValue.str "") with
      | str s =>
        dsimp only
        split_ifs <;> exact ih hrest _ _
      | null => simp [itemOk, hname] at hok
      | bool b => simp [itemOk, hname] at hok
      | num n => simp [itemOk, hname] at hok
      | arr es => simp [itemOk, hname] at hok
      | obj m2 => simp [itemOk, hname] at hok
    | null => simp [itemOk] at hok
    | bool b => simp [itemOk] at hok
    | num n => simp [itemOk] at hok
    | str s => simp [itemOk] at hok
    | arr es => simp [itemOk] at hok

end Polling

namespace Polling

/-- C1 counterexample: a record with two entries matching the approve
category; the Normalizer assigns the value of the SECOND (last) one, 99,
not the first one's 45 that the claim promises. -/
theorem c1_first_match_cex :
    format_polls_data [[("candidate", JValue.arr
      [JValue.obj [("name", JValue.str "Approve"), ("value", JValue.num 45)],
       JValue.obj [("name", JValue.str "Approve again"), ("value", JValue.num 99)]])]]
      = some (headers, [[JValue.str "", JValue.str "", JValue.str "",
          JValue.num 99, JValue.str "", JValue.str ""]]) ∧
    JValue.num 99 ≠ JValue.num 45 := by
  refine ⟨rfl, ?_⟩
  intro h
  injection h with h2
  omega

/-- C1 (amended).  The assignment `approve = value` / `disapprove = value`
runs for every matching entry without breaking out of the loop, so the
value of the LAST matching entry in list order wins for each category (the
initial empty string when no entry matches). -/
theorem c1_last_match_wins (poll : PollRecord) (row : List JValue)
    (h : formatPoll poll = some row) :
    ∃ items, pyIter (pollGet poll "candidate" (JValue.arr [])) = some items ∧
      row.get? 3 = some (((items.filterMap catApprove).getLast?).getD (JValue.str "")) ∧
      row.get? 4 = some (((items.filterMap catDisapprove).getLast?).getD (JValue.str "")) := by
  unfold formatPoll at h
  cases hit : pyIter (pollGet poll "candidate" (JValue.arr [])) with
  | none => rw [hit] at h; exact Option.noConfusion h
  | some items =>
    rw [hit] at h
    dsimp only at h
    cases hsc : scanCandidates items (JValue.str "") (JValue.str "") with
    | none => rw [hsc] at h; exact Option.noConfusion h
    | some ad =>
      obtain ⟨a2, d2⟩ := ad
      rw [hsc] at h
      dsimp only at h
      injection h with h2
      obtain ⟨ha, hd⟩ := scanCandidates_last items _ _ _ _ hsc
      refine ⟨items, rfl, ?_, ?_⟩
      · rw [← h2, ← ha]; rfl
      · rw [← h2, ← hd]; rfl

/-- Witness for C1 (amended) at the two-approve-entries record: the loop
leaves 99, the last match's value, in the approve column. -/
theorem c1_last_match_wins_w :
    formatPoll [("candidate", JValue.arr
      [JValue.obj [("name", JValue.str "Approve"), ("value", JValue.num 45)],
       JValue.obj [("name", JValue.str "Approve again"), ("value", JValue.num 99)]])]
      = some [JValue.str "", JValue.str "", JValue.str "",
          JValue.num 99, JValue.str "", JValue.str ""] ∧
    ∃ items, pyIter (pollGet [("candidate", JValue.arr
      [JValue.obj [("name", JValue.str "Approve"), ("value", JValue.num 45)],
       JValue.obj [("name", JValue.str "Approve again"), ("value", JValue.num 99)]])]
        "candidate" (JValue.arr [])) = some items ∧
      ([JValue.str "", JValue.str "", JValue.str "", JValue.num 99, JValue.str "",
        JValue.str ""] : List JValue).get? 3
        = some (((items.filterMap catApprove).getLast?).getD (JValue.str "")) ∧
      ([JValue.str "", JValue.str "", JValue.str "", JValue.num 99, JValue.str "",
        JValue.str ""] : List JValue).get? 4
        = some (((items.filterMap catDisapprove).getLast?).getD (JValue.str "")) :=
  ⟨rfl, c1_last_match_wins _ _ rfl⟩

/-- C3 counterexample: a record carrying `sampleSize` as the JSON number
500; the produced row holds the number 500, not a text value. -/
theorem c3_fields_text_cex :
    format_polls_data [[("sampleSize", JValue.num 500)]]
      = some (headers, [[JValue.str "", JValue.str "", JValue.num 500,
          JValue.str "", JValue.str "", JValue.str ""]]) ∧
    ∀ s : String, JValue.num 500 ≠ JValue.str s := by
  refine ⟨rfl, ?_⟩
  intro s h
  exact JValue.noConfusion h

/-- C3 (amended).  Every row has exactly 6 fields and each field carries
decoded JSON values unchanged — JSON numbers stay numbers, strings stay
strings — with the empty string only when nothing supplies the field:
pollster, date, sample and spread are the record's values passed through,
and the approve/disapprove columns carry the decoded `value` of the last
matching candidate entry (empty string when no entry matches).  Conversion
to text happens only in the external CSV writer. -/
theorem c3_fields_passthrough (poll : PollRecord) (row : List JValue)
    (h : formatPoll poll = some row) :
    row.length = 6 ∧
    row.get? 0 = some (pollGet poll "pollster"
      (pollGet poll "pollster_group_name" (JValue.str ""))) ∧
    row.get? 1 = some (pollGet poll "date" (JValue.str "")) ∧
    row.get? 2 = some (pollGet poll "sampleSize" (JValue.str "")) ∧
    (∃ items, pyIter (pollGet poll "candidate" (JValue.arr [])) = some items ∧
      row.get? 3 = some (((items.filterMap catApprove).getLast?).getD (JValue.str "")) ∧
      row.get? 4 = some (((items.filterMap catDisapprove).getLast?).getD (JValue.str ""))) ∧
    row.get? 5 = some (match pollGet poll "spread" (JValue.obj []) with
      | JValue.obj m => pollGet m "value" (JValue.str "")
      | _ => JValue.str "") := by
  unfold formatPoll at h
  cases hit : pyIter (pollGet poll "candidate" (JValue.arr [])) with
  | none => rw [hit] at h; exact Option.noConfusion h
  | some items =>
    rw [hit] at h
    dsimp only at h
    cases hsc : scanCandidates items (JValue.str "") (JValue.str "") with
    | none => rw [hsc] at h; exact Option.noConfusion h
    | some ad =>
      obtain ⟨a2, d2⟩ := ad
      rw [hsc] at h
      dsimp only at h
      injection h with h2
      obtain ⟨ha, hd⟩ := scanCandidates_last items _ _ _ _ hsc
      rw [← h2]
      exact ⟨rfl, rfl, rfl, rfl, ⟨items, rfl, by rw [← ha]; rfl, by rw [← hd]; rfl⟩, rfl⟩

/-- Witness for C3 (amended) at a record whose `sampleSize` is the JSON
number 500 and whose candidate list is absent. -/
theorem c3_fields_passthrough_w :
    formatPoll [("sampleSize", JValue.num 500)]
      = some [JValue.str "", JValue.str "", JValue.num 500,
          JValue.str "", JValue.str "", JValue.str ""] ∧
    ([JValue.str "", JValue.str "", JValue.num 500, JValue.str "", JValue.str "",
      JValue.str ""] : List JValue).get? 2
      = some (pollGet [("sampleSize", JValue.num 500)] "sampleSize" (JValue.str "")) ∧
    (∃ items, pyIter (pollGet [("sampleSize", JValue.num 500)] "candidate"
        (JValue.arr [])) = some items ∧
      ([JValue.str "", JValue.str "", JValue.num 500, JValue.str "", JValue.str "",
        JValue.str ""] : List JValue).get? 3
        = some (((items.filterMap catApprove).getLast?).getD (JValue.str "")) ∧
      ([JValue.str "", JValue.str "", JValue.num 500, JValue.str "", JValue.str "",
        JValue.str ""] : List JValue).get? 4
        = some (((items.filterMap catDisapprove).getLast?).getD (JValue.str ""))) := by
  have h := c3_fields_passthrough [("sampleSize", JValue.num 500)]
    [JValue.str "", JValue.str "", JValue.num 500,
     JValue.str "", JValue.str "", JValue.str ""] rfl
  exact ⟨rfl, h.2.2.2.1, h.2.2.2.2.1⟩

/-- C7 counterexample: a record in which the consulted `pollster` field is
absent but whose present `candidate` field is the number 1; iterating it
raises `TypeError`, so `format_polls_data` does not return a row at all
(the raise is modelled as `none`). -/
theorem c7_totality_cex :
    List.lookup "pollster" [("candidate", JValue.num 1)] = none ∧
    format_polls_data [[("candidate", JValue.num 1)]] = none :=
  ⟨rfl, rfl⟩

end Polling

namespace Polling

/-- C7 (amended).  For any record whose `candidate` field is absent or is an
array of objects with string-valued names (the only shapes the candidate
loop traverses without raising — the counterexample shows a present
malformed `candidate` raises even when other fields are absent),
`format_polls_data` never raises: it returns a 6-field row in which every
absent consulted field appears as the empty string. -/
theorem c7_absent_fields_empty (poll : PollRecord)
    (hcand : candOk (pollGet poll "candidate" (JValue.arr [])) = true) :
    ∃ row, format_polls_data [poll] = some (headers, [row]) ∧ row.length = 6 ∧
      (poll.lookup "pollster" = none → poll.lookup "pollster_group_name" = none →
        row.get? 0 = some (JValue.str "")) ∧
      (poll.lookup "date" = none → row.get? 1 = some (JValue.str "")) ∧
      (poll.lookup "sampleSize" = none → row.get? 2 = some (JValue.str "")) ∧
      (poll.lookup "candidate" = none →
        row.get? 3 = some (JValue.str "") ∧ row.get? 4 = some (JValue.str "")) ∧
      (poll.lookup "spread" = none → row.get? 5 = some (JValue.str "")) := by
  cases hcv : pollGet poll "candidate" (JValue.arr []) with
  | arr items =>
    have hall : items.all itemOk = true := by
      rw [hcv] at hcand
      simpa [candOk] using hcand
    obtain ⟨⟨a2, d2⟩, hsc⟩ := scanCandidates_total items hall (JValue.str "") (JValue.str "")
    have hfp : formatPoll poll = some
        [pollGet poll "pollster" (pollGet poll "pollster_group_name" (JValue.str "")),
         pollGet poll "date" (JValue.str ""), pollGet poll "sampleSize" (JValue.str ""),
         a2, d2,
         match pollGet poll "spread" (JValue.obj []) with
         | JValue.obj m => pollGet m "value" (JValue.str "")
         | _ => JValue.str ""] := by
      unfold formatPoll
      rw [hcv]
      simp only [pyIter]
      rw [hsc]
    refine ⟨[pollGet poll "pollster" (pollGet poll "pollster_group_name" (JValue.str "")),
         pollGet poll "date" (JValue.str ""), pollGet poll "sampleSize" (JValue.str ""),
         a2, d2,
         match pollGet poll "spread" (JValue.obj []) with
         | JValue.obj m => pollGet m "value" (JValue.str "")
         | _ => JValue.str ""], ?_, rfl, ?_, ?_, ?_, ?_, ?_⟩
    · unfold format_polls_data
      rw [show ([poll].mapM formatPoll)
          = (formatPoll poll).bind (fun r => some [r]) from rfl]
      rw [hfp]
      rfl
    · intro hl1 hl2
      simp [pollGet, hl1, hl2]
    · intro hl
      simp [pollGet, hl]
    · intro hl
      simp [pollGet, hl]
    · intro hl
      have harr : JValue.arr items = JValue.arr [] := by
        rw [← hcv]
        simp [pollGet, hl]
      injection harr with hitems
      subst hitems
      simp only [scanCandidates] at hsc
      injection hsc with h2
      injection h2 with h3 h4
      constructor
      · simp [← h3]
      · simp [← h4]
    · intro hl
      simp [pollGet, hl]
  | null => rw [hcv] at hcand; simp [candOk] at hcand
  | bool b => rw [hcv] at hcand; simp [candOk] at hcand
  | num n => rw [hcv] at hcand; simp [candOk] at hcand
  | str s => rw [hcv] at hcand; simp [candOk] at hcand
  | obj m => rw [hcv] at hcand; simp [candOk] at hcand

/-- Witness for C7 (amended) at the empty record: every consulted field is
absent and every column of the produced row is the empty string. -/
theorem c7_absent_fields_empty_w :
    candOk (pollGet ([] : PollRecord) "candidate" (JValue.arr [])) = true ∧
    (∃ row, format_polls_data [([] : PollRecord)] = some (headers, [row]) ∧
      row.length = 6 ∧
      (List.lookup "pollster" ([] : PollRecord) = none →
        List.lookup "pollster_group_name" ([] : PollRecord) = none →
        row.get? 0 = some (JValue.str "")) ∧
      (List.lookup "date" ([] : PollRecord) = none → row.get? 1 = some (JValue.str "")) ∧
      (List.lookup "sampleSize" ([] : PollRecord) = none →
        row.get? 2 = some (JValue.str "")) ∧
      (List.lookup "candidate" ([] : PollRecord) = none →
        row.get? 3 = some (JValue.str "") ∧ row.get? 4 = some (JValue.str "")) ∧
      (List.lookup "spread" ([] : PollRecord) = none →
        row.get? 5 = some (JValue.str ""))) :=
  ⟨rfl, c7_absent_fields_empty [] rfl⟩

end Polling

namespace Polling

/-! ## The end-to-end claim -/

theorem drop_append_left {α : Type} (l1 l2 : List α) (n : Nat) :
    (l1 ++ l2).drop (l1.length + n) = l2.drop n := by
  rw [← List.drop_drop, List.drop_left]

/-- C8.  For every document made of the escaped Acme blob surrounded by
arbitrary text that contains no other anchor (the escaped anchor occurs only
at the blob and the unescaped anchor nowhere), the full pipeline —
`extract_all_polls` followed by `format_polls_data` — yields exactly one
row with the values Acme, 2024-01-01, 500, 45, 50, -5. -/
theorem c8_end_to_end (pre suf : List Char)
    (huniq : ∀ q, matchesAt escAnchor ((pre ++ (acmeBlob ++ suf)).drop q) = true →
      q = pre.length)
    (hnoun : ∀ q, matchesAt unescAnchor ((pre ++ (acmeBlob ++ suf)).drop q) = true →
      False) :
    extract_all_polls (pre ++ (acmeBlob ++ suf)) = some [acmeRecord] ∧
    format_polls_data [acmeRecord] = some (headers,
      [[JValue.str "Acme", JValue.str "2024-01-01", JValue.num 500,
        JValue.num 45, JValue.num 50, JValue.num (-5)]]) := by
  have hocc0 : matchesAt escAnchor ((pre ++ (acmeBlob ++ suf)).drop pre.length) = true := by
    rw [List.drop_left]
    exact matchesAt_append escAnchor acmeBlob suf rfl
  have hfind0 : findSub (pre ++ (acmeBlob ++ suf)) escAnchor 0 = some pre.length := by
    obtain ⟨q, hq, hqle⟩ :=
      findSub_found (pre ++ (acmeBlob ++ suf)) escAnchor 0 pre.length hocc0 (Nat.zero_le _)
    have hocc := findSub_occurs (pre ++ (acmeBlob ++ suf)) escAnchor 0 q hq
    rw [huniq q hocc.1] at hq
    exact hq
  have hdropP : (pre ++ (acmeBlob ++ suf)).drop (pre.length + 10)
      = acmeBlob.drop 10 ++ suf := by
    rw [drop_append_left]
    exact List.drop_append_of_le_length (by norm_num [acmeBlob])
  have hcore : scanAux true 185 (some ':') (acmeBlob.drop 10) 0 false 0 = some 185 := rfl
  have hscan : scanArray (pre ++ (acmeBlob ++ suf)) (pre.length + 10) true
      = some (pre.length + 10 + 185) := by
    unfold scanArray
    rw [hdropP]
    rw [scanAux_prev_irrel _ _ (some ':')]
    have hl : (acmeBlob.drop 10 ++ suf).length = 185 + suf.length := by
      rw [List.length_append, show (List.drop 10 acmeBlob).length = 185 from rfl]
    rw [hl]
    have hlift := scanAux_lift true 185 (185 + suf.length) (some ':') (acmeBlob.drop 10)
      suf 0 false 0 185 (pre.length + 10) hcore (by omega)
    simpa using hlift
  have hspan : ((pre ++ (acmeBlob ++ suf)).drop (pre.length + 10)).take
      ((pre.length + 10 + 185) - (pre.length + 10)) = acmeBlob.drop 10 := by
    rw [hdropP]
    have h1 : (pre.length + 10 + 185) - (pre.length + 10) = 185 := by omega
    rw [h1]
    have h2 : (acmeBlob.drop 10).length = 185 := rfl
    rw [← h2, List.take_left]
  have hdec : decodeSpan (acmeBlob.drop 10) true = some [acmeRecord] := rfl
  have hext : extract_json_polls (pre ++ (acmeBlob ++ suf)) 0
      = some ([acmeRecord], pre.length + 195) := by
    unfold extract_json_polls
    rw [hfind0]
    dsimp only
    unfold extractAt
    rw [hscan]
    dsimp only
    rw [hspan, hdec]
  have hnone : extract_json_polls (pre ++ (acmeBlob ++ suf)) (pre.length + 195) = none := by
    unfold extract_json_polls
    cases hf : findSub (pre ++ (acmeBlob ++ suf)) escAnchor (pre.length + 195) with
    | some q =>
      exfalso
      obtain ⟨hocc, hge⟩ := findSub_occurs _ _ _ _ hf
      have := huniq q hocc
      omega
    | none =>
      cases hf2 : findSub (pre ++ (acmeBlob ++ suf)) unescAnchor (pre.length + 195) with
      | some q =>
        exfalso
        obtain ⟨hocc, -⟩ := findSub_occurs _ _ _ _ hf2
        exact hnoun q hocc
      | none => rfl
  refine ⟨?_, rfl⟩
  unfold extract_all_polls
  rw [show (pre ++ (acmeBlob ++ suf)).length + 2
      = (pre ++ (acmeBlob ++ suf)).length + 1 + 1 from rfl]
  rw [extractAllAux_step, hext]
  dsimp only
  rw [extractAllAux_step, hnone]
  rfl

end Polling

namespace Polling

/-- Witness for C8: the blob with empty surrounding text; the anchor checks
are discharged by enumeration over every offset of the document. -/
theorem c8_end_to_end_w :
    extract_all_polls (([] : List Char) ++ (acmeBlob ++ ([] : List Char)))
      = some [acmeRecord] ∧
    format_polls_data [acmeRecord] = some (headers,
      [[JValue.str "Acme", JValue.str "2024-01-01", JValue.num 500,
        JValue.num 45, JValue.num 50, JValue.num (-5)]]) := by
  apply c8_end_to_end
  · intro q h
    simp only [List.nil_append, List.append_nil] at h
    have hq : q < 195 := by
      by_contra hge
      rw [List.drop_eq_nil_of_le (by rw [show acmeBlob.length = 195 from rfl]; omega)] at h
      exact absurd h (by decide)
    have hall : (List.range 195).all
        (fun i => !(matchesAt escAnchor (acmeBlob.drop i)) || (i == 0)) = true := by decide
    have hthis := List.all_eq_true.mp hall q (List.mem_range.mpr hq)
    rw [h] at hthis
    simp at hthis
    exact hthis
  · intro q h
    simp only [List.nil_append, List.append_nil] at h
    have hq : q < 195 := by
      by_contra hge
      rw [List.drop_eq_nil_of_le (by rw [show acmeBlob.length = 195 from rfl]; omega)] at h
      exact absurd h (by decide)
    have hall : (List.range 195).all
        (fun i => !(matchesAt unescAnchor (acmeBlob.drop i))) = true := by decide
    have hthis := List.all_eq_true.mp hall q (List.mem_range.mpr hq)
    rw [h] at hthis
    exact absurd hthis (by decide)

end Polling
